import Mathlib

/-!
Verification development for the garnish-phrases repository: a shallow
embedding of `src/context.rs` (the phrase registry) and `src/lib.rs`
(the phrase reducer) into Lean, together with theorems settling the
specification claims.

Strings are modelled as `List Char` (`Str`).  Rust's `str::split("_")`
on a one-character pattern coincides with `List.splitOn '_'`, and
`Vec::join("_")` is modelled by the recursive `joinU` below.
`HashMap<String, PhraseStatus>` is modelled extensionally as a function
`Str → Option PhraseStatus` (`PartMap`), with `insert` a pointwise
update; `add_phrase` only ever inserts at absent keys, so this is a
faithful rendering of the map's observable behaviour.  Rust's in-place
mutation (which persists even when `add_phrase` returns `Err`) is
modelled by returning the final map next to the `Result`.
-/

namespace GarnishPhrases

abbrev Str := List Char

/-- Model of `PhraseStatus` in `src/context.rs`. -/
inductive PhraseStatus
  | Incomplete
  | Complete
  | NotAPhrase
deriving DecidableEq

/-- Model of `SimpleContextCodes` in `src/context.rs`. -/
inductive SimpleContextCodes
  | IncompleteVersionExists
  | CompleteVersionExists
deriving DecidableEq

/-- Extensional model of `HashMap<String, PhraseStatus>`. -/
abbrev PartMap := Str → Option PhraseStatus

def PartMap.empty : PartMap := fun _ => none

def PartMap.get (m : PartMap) (k : Str) : Option PhraseStatus := m k

def PartMap.insert (m : PartMap) (k : Str) (v : PhraseStatus) : PartMap :=
  fun s => if s = k then some v else m s

/-- Model of `SimplePhraseContext` in `src/context.rs`. -/
structure SimplePhraseContext where
  part_map : PartMap

/-- Model of `Vec<&str>::join("_")` (`PhraseInfo::full_text`, and the
`running_parts.join("_")` calls in `add_phrase`). -/
def joinU : List Str → Str
  | [] => []
  | [p] => p
  | p :: q :: rest => p ++ '_' :: joinU (q :: rest)

/-- The prefix-insertion loop of `SimplePhraseContext::add_phrase`
(`src/context.rs` lines 43-58): iterates over all parts but the last,
skipping empty parts, inserting each running prefix as `Incomplete`
unless present; a present `Complete` entry aborts with
`CompleteVersionExists`.  Returns the `Result`, the (possibly mutated)
map, and the final `running_parts`. -/
def addPrefixLoop : PartMap → List Str → List Str →
    Option SimpleContextCodes × PartMap × List Str
  | m, running, [] => (none, m, running)
  | m, running, part :: rest =>
    if part = [] then addPrefixLoop m running rest
    else
      let running₁ := running ++ [part]
      let incomplete_phrase := joinU running₁
      match PartMap.get m incomplete_phrase with
      | none =>
          addPrefixLoop (PartMap.insert m incomplete_phrase PhraseStatus.Incomplete) running₁ rest
      | some status =>
          if status = PhraseStatus.Complete then
            (some SimpleContextCodes.CompleteVersionExists, m, running₁)
          else addPrefixLoop m running₁ rest

/-- Model of `SimplePhraseContext::add_phrase` (`src/context.rs` lines
33-80).  The first component is the `Result` (`none` = `Ok(())`), the
second the context after the call (Rust mutates `self` in place, also
on the error paths). -/
def addPhrase (c : SimplePhraseContext) (phrase : Str) :
    Option SimpleContextCodes × SimplePhraseContext :=
  let parts := phrase.splitOn '_'
  if parts.length = 0 then (none, c)
  else
    match addPrefixLoop c.part_map [] (parts.take (parts.length - 1)) with
    | (some e, m, _) => (some e, ⟨m⟩)
    | (none, m, running_parts) =>
      match parts.getLast? with
      | none => (none, ⟨m⟩)
      | some part =>
        if part = [] then (none, ⟨m⟩)
        else
          let complete_phrase := joinU (running_parts ++ [part])
          match PartMap.get m complete_phrase with
          | none => (none, ⟨PartMap.insert m complete_phrase PhraseStatus.Complete⟩)
          | some status =>
            if status = PhraseStatus.Incomplete then
              (some SimpleContextCodes.IncompleteVersionExists, ⟨m⟩)
            else (none, ⟨m⟩)

/-- Model of `SimplePhraseContext::get_phrase_status` (`src/context.rs`
lines 83-90): exact lookup, defaulting to `NotAPhrase`. -/
def getPhraseStatus (c : SimplePhraseContext) (s : Str) : PhraseStatus :=
  match PartMap.get c.part_map s with
  | none => PhraseStatus.NotAPhrase
  | some status => status

/-!
Embedding of `src/lib.rs`.  The node arena (`ParseResult`, `ParseNode`,
`LexerToken` from the external `garnish_lang_compiler` crate, specified
at its boundary in spec §3/§6) is modelled as a list of nodes plus a
root index; the reducer only uses get-by-index, append, get/set root
and the per-node field accessors, all mirrored below.  `Definition`
keeps the variants the reducer distinguishes (`Identifier`, `List`,
`Number`, `EmptyApply`, `ApplyTo`); every other parser variant is
treated uniformly by the code's catch-all arm and is modelled by
`Other`.  In-place mutation is modelled by threading `ParseResult`
values; Rust's `Result<_, String>` becomes `Except String _`.
-/

inductive Definition
  | Identifier
  | List
  | Number
  | EmptyApply
  | ApplyTo
  | Other
deriving DecidableEq

inductive SecondaryDefinition
  | UnarySuffix
  | OtherSecondary
deriving DecidableEq

inductive TokenType
  | Identifier
  | OtherType
deriving DecidableEq

structure LexerToken where
  text : Str
  token_type : TokenType
  line : Nat
  column : Nat
deriving DecidableEq

structure ParseNode where
  definition : Definition
  secondary_definition : SecondaryDefinition
  parent : Option Nat
  left : Option Nat
  right : Option Nat
  lex_token : LexerToken
deriving DecidableEq

structure ParseResult where
  nodes : List ParseNode
  root : Nat
deriving DecidableEq

/-- Model of `ParseResult::get_node`. -/
def ParseResult.getNode (pr : ParseResult) (i : Nat) : Option ParseNode :=
  pr.nodes[i]?

/-- Model of `ParseResult::add_node` (append to the arena). -/
def ParseResult.addNode (pr : ParseResult) (n : ParseNode) : ParseResult :=
  { pr with nodes := pr.nodes ++ [n] }

/-- Model of `ParseResult::set_root`. -/
def ParseResult.setRoot (pr : ParseResult) (r : Nat) : ParseResult :=
  { pr with root := r }

/-- Model of a `get_node_mut` followed by a field update: `none` when
the index is absent from the arena. -/
def ParseResult.modifyNode (pr : ParseResult) (i : Nat) (f : ParseNode → ParseNode) :
    Option ParseResult :=
  match pr.nodes[i]? with
  | none => none
  | some n => some { pr with nodes := pr.nodes.set i (f n) }

/-- Rendering of Rust's `{:?}` on an `Option<usize>`, used in the error
messages of `check_node_for_phrase`. -/
def optNatMsg : Option Nat → String
  | none => "None"
  | some n => "Some(" ++ toString n ++ ")"

/-- Model of `PhraseInfo` (`src/lib.rs` lines 7-32). -/
structure PhraseInfo where
  phrase_parts : List Str
  arguments : List Nat
deriving DecidableEq

def PhraseInfo.mk1 (part : Str) : PhraseInfo :=
  { phrase_parts := [part], arguments := [] }

def PhraseInfo.full_text (i : PhraseInfo) : Str :=
  joinU i.phrase_parts

def PhraseInfo.full_text_with (i : PhraseInfo) (part : Str) : Str :=
  i.full_text ++ '_' :: part

def PhraseInfo.add_part (i : PhraseInfo) (part : Str) : PhraseInfo :=
  { i with phrase_parts := i.phrase_parts ++ [part] }

def PhraseInfo.add_argument (i : PhraseInfo) (argument : Nat) : PhraseInfo :=
  { i with arguments := i.arguments ++ [argument] }

/-- The accumulator stack `phrases : Vec<PhraseInfo>` is modelled with
the TOP of the stack at the HEAD of the list (`push` = cons,
`last_mut` = head, `pop` = tail). -/
abbrev PhraseStack := List PhraseInfo

/-- The trait method `PhraseContext::get_phrase_status`, the only
capability the reducer consumes (spec §6). -/
abbrev PhraseCtx := Str → PhraseStatus

/-- The `EmptyApply` node built by `ParseNode::new(Definition::EmptyApply,
SecondaryDefinition::UnarySuffix, node.get_parent(), Some(node_index),
None, node.get_lex_token().clone())`, common to both zero-operand
resolution paths. -/
def mkEmptyApply (node : ParseNode) (node_index : Nat) : ParseNode :=
  { definition := Definition.EmptyApply
    secondary_definition := SecondaryDefinition.UnarySuffix
    parent := node.parent
    left := some node_index
    right := none
    lex_token := node.lex_token }

/-- Model of `resolve_single_word_phrase` (`src/lib.rs` lines 353-381):
appends an `EmptyApply` node, re-points the tree root when the
identifier was the root, and sets the identifier's parent to the new
node. -/
def resolveSingleWordPhrase (node : ParseNode) (node_index : Nat) (result : ParseResult) :
    Except String (Option Nat × ParseResult) :=
  let new_index := result.nodes.length
  let result₁ := result.addNode (mkEmptyApply node node_index)
  let result₂ := if result₁.root = node_index then result₁.setRoot new_index else result₁
  match result₂.modifyNode node_index (fun n => { n with parent := some new_index }) with
  | none => Except.error ("Node at " ++ toString node_index ++ " not found")
  | some result₃ => Except.ok (some new_index, result₃)

/-- The `0 =>` arm of the multi-word resolution (`src/lib.rs` lines
218-244): looks up the identifier's (original) parent, sets that
parent's RIGHT child to the new index, appends the `EmptyApply` node,
then re-points the identifier's parent field. -/
def multiWordZeroArg (node : ParseNode) (node_index : Nat) (result : ParseResult) :
    Except String (Option Nat × ParseResult) :=
  let new_index := result.nodes.length
  match node.parent.bind (fun p => result.modifyNode p (fun parent => { parent with right := some new_index })) with
  | none => Except.error ("Node at " ++ optNatMsg node.parent ++ " not found")
  | some result₁ =>
    let result₂ := result₁.addNode (mkEmptyApply node node_index)
    match result₂.modifyNode node_index (fun n => { n with parent := some new_index }) with
    | none => Except.error ("Node at " ++ toString node_index ++ " not found")
    | some result₃ => Except.ok (some new_index, result₃)

/-- The `1 =>` arm of the multi-word resolution (`src/lib.rs` lines
245-266): turns the parent into `ApplyTo`, replaces its left child by
the single accumulated argument, and re-points that argument's
parent. -/
def multiWordOneArg (node : ParseNode) (arguments : List Nat) (result : ParseResult) :
    Except String (Option Nat × ParseResult) :=
  match node.parent.bind (fun p => result.modifyNode p (fun parent =>
      { parent with definition := Definition.ApplyTo, left := arguments.get? 0 })) with
  | none => Except.error ("Node at " ++ optNatMsg node.parent ++ " not found")
  | some result₁ =>
    match (arguments.get? 0).bind (fun i => result₁.modifyNode i (fun left_node =>
        { left_node with parent := node.parent })) with
    | none => Except.error ("Node at " ++ optNatMsg (arguments.get? 0) ++ " not found")
    | some result₂ => Except.ok (node.parent, result₂)

/-- The descending `for i in (1..len).rev()` loop of the `_n =>` arm
(`src/lib.rs` lines 281-320): `is` is the list of arguments with index
`≥ 1`, processed last-to-first; the singleton case is the `i == 1`
iteration that also attaches `arguments[0]` and breaks. -/
def attachArgs (arg0 : Nat) : List Nat → Option Nat → ParseResult → Except String ParseResult
  | [], _, result => Except.ok result
  | [a1], next_parent, result =>
    match result.modifyNode a1 (fun right => { right with parent := next_parent }) with
    | none => Except.error ("Node at " ++ toString a1 ++ " not found")
    | some result₁ =>
      match next_parent with
      | none => Except.error ("Node at " ++ optNatMsg next_parent ++ " not found")
      | some p =>
        match result₁.getNode p with
        | none => Except.error ("Node at " ++ optNatMsg next_parent ++ " not found")
        | some parent =>
          let result₂ : ParseResult :=
            { result₁ with nodes := result₁.nodes.set p { parent with right := some a1, left := some arg0 } }
          match result₂.modifyNode arg0 (fun left => { left with parent := next_parent }) with
          | none => Except.error ("Node at " ++ toString arg0 ++ " not found")
          | some result₃ => Except.ok result₃
  | a :: a' :: restArgs, next_parent, result =>
    match result.modifyNode a (fun right => { right with parent := next_parent }) with
    | none => Except.error ("Node at " ++ toString a ++ " not found")
    | some result₁ =>
      match next_parent with
      | none => Except.error ("Node at " ++ optNatMsg next_parent ++ " not found")
      | some p =>
        match result₁.getNode p with
        | none => Except.error ("Node at " ++ optNatMsg next_parent ++ " not found")
        | some parent =>
          let result₂ : ParseResult :=
            { result₁ with nodes := result₁.nodes.set p { parent with right := some a } }
          attachArgs arg0 (a' :: restArgs) parent.left result₂

/-- The `_n =>` arm of the multi-word resolution (`src/lib.rs` lines
267-323): turns the parent into `ApplyTo` and walks the existing
`List` chain hanging off its left child, attaching the accumulated
arguments in reverse. -/
def multiWordManyArgs (node : ParseNode) (arguments : List Nat) (result : ParseResult) :
    Except String (Option Nat × ParseResult) :=
  match node.parent with
  | none => Except.error ("Node at " ++ optNatMsg node.parent ++ " not found")
  | some p =>
    match result.getNode p with
    | none => Except.error ("Node at " ++ optNatMsg node.parent ++ " not found")
    | some parent =>
      let result₁ : ParseResult :=
        { result with nodes := result.nodes.set p { parent with definition := Definition.ApplyTo } }
      let next_parent := parent.left
      match arguments with
      | [] => Except.ok (node.parent, result₁)
      | arg0 :: restArgs =>
        (attachArgs arg0 restArgs.reverse next_parent result₁).map
          (fun r => (node.parent, r))

/-- Append a produced candidate-argument index to the open accumulator,
if any (`src/lib.rs` lines 339-348). -/
def appendArg (arg_index : Option Nat) (phrases : PhraseStack) : PhraseStack :=
  match arg_index, phrases with
  | some index, info :: rest => info.add_argument index :: rest
  | _, phrases => phrases

/-- Model of `check_node_for_phrase` (`src/lib.rs` lines 136-351).
`node` is the node as read from the ORIGINAL tree (see
`check_node_index_for_phrase`), `result` the clone being rewritten. -/
def checkNodeForPhrase (node : ParseNode) (node_index : Nat) (phrases : PhraseStack)
    (ctx : PhraseCtx) (result : ParseResult) (is_left_of_parent : Bool) :
    Except String (PhraseStack × ParseResult) :=
  match node.definition with
  | Definition.Identifier =>
    let phrase_text := node.lex_token.text
    match phrases with
    | [] =>
      match ctx phrase_text with
      | PhraseStatus.Incomplete =>
          Except.ok (appendArg none (PhraseInfo.mk1 phrase_text :: phrases), result)
      | PhraseStatus.Complete =>
          (resolveSingleWordPhrase node node_index result).map
            (fun pr => (appendArg pr.1 phrases, pr.2))
      | PhraseStatus.NotAPhrase =>
          Except.ok (appendArg (some node_index) phrases, result)
    | info :: rest =>
      let new_phrase_text := info.full_text_with phrase_text
      match ctx new_phrase_text with
      | PhraseStatus.NotAPhrase =>
        match ctx phrase_text with
        | PhraseStatus.Incomplete =>
            Except.ok (appendArg none (PhraseInfo.mk1 phrase_text :: info :: rest), result)
        | PhraseStatus.Complete =>
            (resolveSingleWordPhrase node node_index result).map
              (fun pr => (appendArg pr.1 (info :: rest), pr.2))
        | PhraseStatus.NotAPhrase =>
            Except.ok (appendArg (some node_index) (info :: rest), result)
      | PhraseStatus.Incomplete =>
          Except.ok (appendArg none (info.add_part phrase_text :: rest), result)
      | PhraseStatus.Complete =>
        match result.modifyNode node_index (fun n =>
            { n with lex_token :=
                { text := new_phrase_text
                  token_type := TokenType.Identifier
                  line := n.lex_token.line
                  column := n.lex_token.column } }) with
        | none => Except.error ("Node at " ++ toString node_index ++ " not found")
        | some result₁ =>
          ((match info.arguments.length with
            | 0 => multiWordZeroArg node node_index result₁
            | 1 => multiWordOneArg node info.arguments result₁
            | _ => multiWordManyArgs node info.arguments result₁) :
              Except String (Option Nat × ParseResult)).map
            (fun pr => (appendArg pr.1 rest, pr.2))
  | Definition.List =>
    if is_left_of_parent then Except.ok (appendArg none phrases, result)
    else Except.ok (appendArg (some node_index) phrases, result)
  | _ => Except.ok (appendArg (some node_index) phrases, result)

/-- Model of `check_node_index_for_phrase` (`src/lib.rs` lines
112-134): a `None` index, or an index absent from the ORIGINAL arena,
is silently skipped with `Ok`. -/
def checkNodeIndexForPhrase (node_index_opt : Option Nat) (phrases : PhraseStack)
    (ctx : PhraseCtx) (original : ParseResult) (result : ParseResult)
    (is_left_of_parent : Bool) : Except String (PhraseStack × ParseResult) :=
  match node_index_opt with
  | none => Except.ok (phrases, result)
  | some index =>
    match original.getNode index with
    | none => Except.ok (phrases, result)
    | some node => checkNodeForPhrase node index phrases ctx result is_left_of_parent

/-- The discovery loop of `reduce_phrases` (`src/lib.rs` lines 57-83),
with explicit fuel for the `while let` loop (`none` = fuel exhausted,
i.e. the loop is still running after that many iterations).  The work
stack and parent stack have their tops at the head.  The last component
of the `ok` result is ghost instrumentation recording the indices in
the order they were POPPED from the work stack; it does not influence
the computation. -/
def discoverLoop (original : ParseResult) :
    List Nat → List Nat → List Nat → Nat → Option (Except String (List Nat × List Nat))
  | [], parent_stack, trace, _ => some (Except.ok (parent_stack, trace))
  | _ :: _, _, _, 0 => none
  | i :: rest, parent_stack, trace, fuel + 1 =>
    let trace₁ := trace ++ [i]
    match original.getNode i with
    | none => some (Except.error ("Node at index " ++ toString i ++ " not present"))
    | some node =>
      match node.left, node.right with
      | none, none => discoverLoop original rest parent_stack trace₁ fuel
      | some left_index, some right_index =>
          discoverLoop original (right_index :: left_index :: rest) (i :: parent_stack) trace₁ fuel
      | some left_index, none =>
          discoverLoop original (left_index :: rest) (i :: parent_stack) trace₁ fuel
      | none, some right_index =>
          discoverLoop original (right_index :: rest) (i :: parent_stack) trace₁ fuel

/-- The replay loop of `reduce_phrases` (`src/lib.rs` lines 85-107):
pop the parent stack, checking each parent's left then right child. -/
def replayLoop (ctx : PhraseCtx) (original : ParseResult) :
    List Nat → PhraseStack → ParseResult → Except String ParseResult
  | [], _, result => Except.ok result
  | i :: rest, phrases, result =>
    match original.getNode i with
    | none => Except.error ("Node at index " ++ toString i ++ " not present")
    | some node =>
      match checkNodeIndexForPhrase node.left phrases ctx original result true with
      | Except.error e => Except.error e
      | Except.ok (phrases₁, result₁) =>
        match checkNodeIndexForPhrase node.right phrases₁ ctx original result₁ false with
        | Except.error e => Except.error e
        | Except.ok (phrases₂, result₂) => replayLoop ctx original rest phrases₂ result₂

/-- Model of `reduce_phrases` (`src/lib.rs` lines 34-110).  `fuel`
bounds the number of iterations of the discovery `while let` loop;
`none` means the loop had not finished within `fuel` iterations (on
well-founded trees a sufficient fuel always exists, see the theorems
below). -/
def reduce_phrases (parse_result : ParseResult) (ctx : PhraseCtx) (fuel : Nat) :
    Option (Except String ParseResult) :=
  let current_index := parse_result.root
  let new_result := parse_result
  if parse_result.nodes.length = 1 then
    some ((checkNodeIndexForPhrase (some current_index) [] ctx parse_result new_result false).map
      (fun pr => pr.2))
  else
    match discoverLoop parse_result [current_index] [] [] fuel with
    | none => none
    | some (Except.error e) => some (Except.error e)
    | some (Except.ok (parent_stack, _)) =>
        some (replayLoop ctx parse_result parent_stack [] new_result)

/-!
Derived notions used by the theorems: result-shape helpers, the
registry reachability invariant, termination machinery for the
discovery loop, and the concrete inputs of the counterexamples.
-/

/-- Set node `i`'s parent field to `some new_parent` in an arena
(no-op when the index is absent). -/
def setParentAt (ns : List ParseNode) (i new_parent : Nat) : List ParseNode :=
  match ns[i]? with
  | none => ns
  | some n => ns.set i { n with parent := some new_parent }

/-- Set node `i`'s right-child field to `some r` in an arena (no-op
when the index is absent). -/
def setRightAt (ns : List ParseNode) (i r : Nat) : List ParseNode :=
  match ns[i]? with
  | none => ns
  | some n => ns.set i { n with right := some r }

/-- Closed form of what `resolve_single_word_phrase` produces on an
in-range identifier index: the arena gains the `EmptyApply` node at the
end, the identifier's parent field is re-pointed to it, and the root is
re-pointed exactly when the identifier was the root. -/
def singleResolved (node : ParseNode) (node_index : Nat) (res : ParseResult) : ParseResult :=
  { nodes := setParentAt (res.nodes ++ [mkEmptyApply node node_index]) node_index res.nodes.length
    root := if res.root = node_index then res.nodes.length else res.root }

/-- Registries reachable from `SimplePhraseContext::new()` by any
sequence of `add_phrase` calls (successful or failing). -/
inductive Reachable : SimplePhraseContext → Prop
  | base : Reachable ⟨PartMap.empty⟩
  | step (c : SimplePhraseContext) (p : Str) : Reachable c → Reachable (addPhrase c p).2

/-- Structural invariant of every reachable registry map: every present
key is a join of nonempty (automatically separator-free) segments, and
every proper segment-prefix join of a present key is itself present. -/
def Inv (m : PartMap) : Prop :=
  ∀ s : Str, (m s).isSome →
    (∀ p ∈ s.splitOn '_', p ≠ []) ∧
    ∀ k, 0 < k → k < (s.splitOn '_').length → (m (joinU ((s.splitOn '_').take k))).isSome

/-- Fuel-indexed cost of discovering the subtree below index `i`:
an upper bound for the number of discovery-loop iterations spent on it,
provided the first argument bounds the rank of `i`. -/
def costF (pr : ParseResult) : Nat → Nat → Nat
  | 0, _ => 1
  | k + 1, i =>
    match pr.getNode i with
    | none => 1
    | some node =>
      match node.left, node.right with
      | none, none => 1
      | some l, some r => 1 + costF pr k l + costF pr k r
      | some l, none => 1 + costF pr k l
      | none, some r => 1 + costF pr k r

/-- A ranking function witnessing that the child-index relation of the
tree is well founded (equivalently, acyclic) on present nodes. -/
def RankOK (pr : ParseResult) (rank : Nat → Nat) : Prop :=
  ∀ i node, pr.getNode i = some node →
    (∀ l, node.left = some l → rank l < rank i) ∧
    (∀ r, node.right = some r → rank r < rank i)

/-- A context under which every lookup answers `NotAPhrase`. -/
def ctxNone : PhraseCtx := fun _ => PhraseStatus.NotAPhrase

def exToken : LexerToken := ⟨['t'], TokenType.Identifier, 0, 0⟩

/-- An identifier node sitting as the LEFT child of node 1. -/
def exIdNode : ParseNode :=
  ⟨Definition.Identifier, SecondaryDefinition.OtherSecondary, some 1, none, none, exToken⟩

/-- A parent whose left child is node 0. -/
def exParentNode : ParseNode :=
  ⟨Definition.List, SecondaryDefinition.OtherSecondary, none, some 0, none, exToken⟩

/-- Two-node tree: identifier 0 is the left child of root 1. -/
def exTree2 : ParseResult := ⟨[exIdNode, exParentNode], 1⟩

/-- A root identifier node with no parent. -/
def exRootIdNode : ParseNode :=
  ⟨Definition.Identifier, SecondaryDefinition.OtherSecondary, none, none, none, exToken⟩

/-- One-node tree consisting of a root identifier. -/
def exTree1 : ParseResult := ⟨[exRootIdNode], 0⟩

/-- One-node tree whose recorded root index (7) is absent from the arena. -/
def exBadRootTree : ParseResult := ⟨[exRootIdNode], 7⟩

/-- Three-node tree: root 0 with left child 1 and right child 2. -/
def exTree3 : ParseResult :=
  ⟨[⟨Definition.List, SecondaryDefinition.OtherSecondary, none, some 1, some 2, exToken⟩,
    ⟨Definition.Number, SecondaryDefinition.OtherSecondary, some 0, none, none, exToken⟩,
    ⟨Definition.Number, SecondaryDefinition.OtherSecondary, some 0, none, none, exToken⟩], 0⟩

/-- Two-node tree whose child indices form a cycle: 0 → 1 → 0. -/
def exCycTree : ParseResult :=
  ⟨[⟨Definition.Other, SecondaryDefinition.OtherSecondary, none, some 1, none, exToken⟩,
    ⟨Definition.Other, SecondaryDefinition.OtherSecondary, none, some 0, none, exToken⟩], 0⟩

/-- An open accumulator that has consumed the single part `"a"`. -/
def exInfoA : PhraseInfo := ⟨[['a']], []⟩

/-- An identifier node with token text `"b"`. -/
def exNodeB : ParseNode :=
  ⟨Definition.Identifier, SecondaryDefinition.OtherSecondary, some 0, none, none,
    ⟨['b'], TokenType.Identifier, 0, 0⟩⟩

/-- The empty tree, used where the rewritten result is irrelevant. -/
def exTreeE : ParseResult := ⟨[], 0⟩

/-- The spec's example text with trailing separators. -/
def c6text : Str := "some_great_phrase__".toList

def c6join : Str := "some_great_phrase".toList

/-- Registry obtained by registering `a_b` into a fresh context. -/
def exCtxAB : SimplePhraseContext := (addPhrase ⟨PartMap.empty⟩ "a_b".toList).2

/-! Basic lemmas about `joinU` and `List.splitOn`. -/

theorem PartMap.get_insert (m : PartMap) (k : Str) (v : PhraseStatus) (s : Str) :
    PartMap.get (m.insert k v) s = if s = k then some v else PartMap.get m s := rfl

theorem joinU_eq_intercalate : ∀ ps : List Str, joinU ps = List.intercalate ['_'] ps
  | [] => by simp [joinU, List.intercalate]
  | [p] => by simp [joinU, List.intercalate]
  | p :: q :: rest => by
    have ih := joinU_eq_intercalate (q :: rest)
    simp only [joinU, List.intercalate] at ih ⊢
    simp [ih]

theorem splitOn_joinU {ps : List Str} (h : ∀ p ∈ ps, '_' ∉ p) (hne : ps ≠ []) :
    (joinU ps).splitOn '_' = ps := by
  rw [joinU_eq_intercalate]
  exact List.splitOn_intercalate ps '_' h hne

theorem joinU_splitOn (s : Str) : joinU (s.splitOn '_') = s := by
  rw [joinU_eq_intercalate]
  exact List.intercalate_splitOn s '_'

theorem splitOn_ne_nil (c : Char) (s : Str) : s.splitOn c ≠ [] := by
  simp only [List.splitOn]
  exact List.splitOnP_ne_nil _ _

theorem not_mem_of_mem_splitOn {c : Char} : ∀ {s l : Str}, l ∈ s.splitOn c → c ∉ l := by
  intro s
  induction s with
  | nil =>
    intro l h
    simp only [List.splitOn, List.splitOnP_nil, List.mem_singleton] at h
    subst h; simp
  | cons x xs ih =>
    intro l h
    simp only [List.splitOn, List.splitOnP_cons] at h ih
    by_cases hx : x = c
    · rw [if_pos (by simp [hx])] at h
      rcases List.mem_cons.mp h with h | h
      · subst h; simp
      · exact ih h
    · rw [if_neg (by simp [hx])] at h
      rcases hsp : xs.splitOnP (· == c) with _ | ⟨hd, tl⟩
      · exact absurd hsp (List.splitOnP_ne_nil _ _)
      · rw [hsp, List.modifyHead_cons] at h
        rcases List.mem_cons.mp h with h | h
        · subst h
          intro hmem
          rcases List.mem_cons.mp hmem with h | h
          · exact hx h.symm
          · exact ih (hsp ▸ List.mem_cons_self hd tl) h
        · exact ih (hsp ▸ List.mem_cons_of_mem hd h)

theorem joinU_inj {ps qs : List Str} (hp : ∀ p ∈ ps, '_' ∉ p) (hq : ∀ q ∈ qs, '_' ∉ q)
    (hpne : ps ≠ []) (hqne : qs ≠ []) (h : joinU ps = joinU qs) : ps = qs := by
  have h1 := splitOn_joinU hp hpne
  rw [h, splitOn_joinU hq hqne] at h1
  exact h1.symm

/-! Invariant lemmas about the prefix-insertion loop. -/

theorem addPrefixLoop_ok_running (ps : List Str) :
    ∀ (m : PartMap) (running : List Str) (m₁ : PartMap) (running₁ : List Str),
      addPrefixLoop m running ps = (none, m₁, running₁) →
      running₁ = running ++ ps.filter (fun p => !p.isEmpty) := by
  induction ps with
  | nil =>
    intro m running m₁ running₁ h
    simp only [addPrefixLoop, Prod.mk.injEq] at h
    simp [← h.2.2]
  | cons part rest ih =>
    intro m running m₁ running₁ h
    simp only [addPrefixLoop] at h
    by_cases hp : part = []
    · rw [if_pos hp] at h
      have hr := ih m running m₁ running₁ h
      subst hp
      simpa using hr
    · rw [if_neg hp] at h
      split at h
      · have hr := ih _ _ _ _ h
        rw [hr]
        simp [List.filter_cons, hp]
      · split at h
        · simp at h
        · have hr := ih _ _ _ _ h
          rw [hr]
          simp [List.filter_cons, hp]

theorem addPrefixLoop_no_notaphrase (ps : List Str) :
    ∀ (m : PartMap) (running : List Str),
      (∀ s, m s ≠ some PhraseStatus.NotAPhrase) →
      ∀ s, (addPrefixLoop m running ps).2.1 s ≠ some PhraseStatus.NotAPhrase := by
  induction ps with
  | nil =>
    intro m running hm s
    simpa [addPrefixLoop] using hm s
  | cons part rest ih =>
    intro m running hm s
    simp only [addPrefixLoop]
    by_cases hp : part = []
    · rw [if_pos hp]
      exact ih m running hm s
    · rw [if_neg hp]
      split
      · refine ih _ _ (fun t => ?_) s
        simp only [PartMap.insert]
        by_cases ht : t = joinU (running ++ [part]) <;> simp [ht, hm t]
      · split
        · exact hm s
        · exact ih _ _ hm s

/-! Claim C6. -/

/-- C6 counterexample: the spec's own example text `"some_great_phrase__"`
has non-empty normalized segment list `[some, great, phrase]` and causes
no conflict in a fresh registry (the call returns `Ok`), yet the join
`"some_great_phrase"` is registered `Incomplete`, not `Complete` as the
claim states: the code returns early when the LAST raw split segment is
empty, skipping the `Complete` insertion entirely. -/
theorem C6_counterexample :
    (addPhrase ⟨PartMap.empty⟩ c6text).1 = none ∧
    getPhraseStatus (addPhrase ⟨PartMap.empty⟩ c6text).2 c6join = PhraseStatus.Incomplete ∧
    getPhraseStatus (addPhrase ⟨PartMap.empty⟩ c6text).2 c6join ≠ PhraseStatus.Complete := by
  refine ⟨by decide, by decide, by decide⟩

/-- C6 (amended): for every text whose LAST raw `_`-split segment is
non-empty, a conflict-free `add_phrase` call against a registry that
stores no `NotAPhrase` entries afterwards maps the join of all
non-empty segments to `Complete`; when the text ends in a separator the
last raw segment is empty and the call instead returns `Ok` early,
leaving the join at whatever the prefix loop produced (`Incomplete` on
a fresh registry — see the counterexample). -/
theorem C6_last_segment_nonempty_registers_complete
    (m : PartMap) (phrase : Str) (lastp : Str)
    (hm : ∀ s, m s ≠ some PhraseStatus.NotAPhrase)
    (hlast : (phrase.splitOn '_').getLast? = some lastp)
    (hlp : lastp ≠ [])
    (hok : (addPhrase ⟨m⟩ phrase).1 = none) :
    getPhraseStatus (addPhrase ⟨m⟩ phrase).2
      (joinU ((phrase.splitOn '_').filter (fun p => !p.isEmpty))) = PhraseStatus.Complete := by
  have hne : phrase.splitOn '_' ≠ [] := splitOn_ne_nil _ _
  have hlen : ¬ (phrase.splitOn '_').length = 0 := by
    simpa [List.length_eq_zero] using hne
  have hsplit_eq : phrase.splitOn '_' =
      (phrase.splitOn '_').take ((phrase.splitOn '_').length - 1) ++ [lastp] := by
    rw [← List.dropLast_eq_take]
    exact (List.dropLast_append_getLast? lastp (by simpa [Option.mem_def] using hlast)).symm
  have hfilter : (phrase.splitOn '_').filter (fun p => !p.isEmpty) =
      ((phrase.splitOn '_').take ((phrase.splitOn '_').length - 1)).filter (fun p => !p.isEmpty)
        ++ [lastp] := by
    conv_lhs => rw [hsplit_eq]
    rw [List.filter_append]
    congr 1
    obtain ⟨c, t, rfl⟩ : ∃ c t, lastp = c :: t := by
      cases lastp with
      | nil => exact absurd rfl hlp
      | cons c t => exact ⟨c, t, rfl⟩
    simp [List.filter]
  simp only [addPhrase] at hok ⊢
  rw [if_neg hlen] at hok ⊢
  rcases hloop : addPrefixLoop m [] ((phrase.splitOn '_').take ((phrase.splitOn '_').length - 1))
    with ⟨res, m₁, r₁⟩
  rw [hloop] at hok
  cases res with
  | some e => simp at hok
  | none =>
    have hr : r₁ = ((phrase.splitOn '_').take ((phrase.splitOn '_').length - 1)).filter
        (fun p => !p.isEmpty) := by
      simpa using addPrefixLoop_ok_running _ _ _ _ _ hloop
    have hnophrase : ∀ s, m₁ s ≠ some PhraseStatus.NotAPhrase := by
      intro s
      have := addPrefixLoop_no_notaphrase
        ((phrase.splitOn '_').take ((phrase.splitOn '_').length - 1)) m [] hm s
      rw [hloop] at this
      exact this
    simp only [hlast] at hok ⊢
    rw [if_neg hlp] at hok ⊢
    rw [hfilter, ← hr]
    cases hget : PartMap.get m₁ (joinU (r₁ ++ [lastp])) with
    | none =>
        simp [getPhraseStatus, PartMap.get, PartMap.insert]
    | some status =>
        cases status with
        | Incomplete =>
            rw [hget] at hok
            simp at hok
        | Complete =>
            simp only [PartMap.get] at hget
            simp [getPhraseStatus, PartMap.get, hget]
        | NotAPhrase => exact absurd hget (hnophrase _)

/-- C6 witness: concrete instance of the amended theorem at the text
`"great_phrase"` over the empty registry. -/
theorem C6_witness :
    getPhraseStatus (addPhrase ⟨PartMap.empty⟩ "great_phrase".toList).2
      (joinU (("great_phrase".toList.splitOn '_').filter (fun p => !p.isEmpty)))
      = PhraseStatus.Complete :=
  C6_last_segment_nonempty_registers_complete PartMap.empty "great_phrase".toList
    "phrase".toList (fun _ => by simp [PartMap.empty]) (by decide) (by decide) (by decide)

/-! Claim C9. -/

/-- C9: registering `a_b_c` (three distinct, nonempty, separator-free
segments) into a fresh registry succeeds; afterwards `a` and `a_b` are
`Incomplete`, `a_b_c` is `Complete`, and every other string is
`NotAPhrase`. -/
theorem C9_three_segment_statuses
    (a b c : Str) (ha : a ≠ []) (hb : b ≠ []) (hc : c ≠ [])
    (hau : '_' ∉ a) (hbu : '_' ∉ b) (hcu : '_' ∉ c)
    (hab : a ≠ b) (hac : a ≠ c) (hbc : b ≠ c) :
    (addPhrase ⟨PartMap.empty⟩ (joinU [a, b, c])).1 = none ∧
    getPhraseStatus (addPhrase ⟨PartMap.empty⟩ (joinU [a, b, c])).2 a
      = PhraseStatus.Incomplete ∧
    getPhraseStatus (addPhrase ⟨PartMap.empty⟩ (joinU [a, b, c])).2 (joinU [a, b])
      = PhraseStatus.Incomplete ∧
    getPhraseStatus (addPhrase ⟨PartMap.empty⟩ (joinU [a, b, c])).2 (joinU [a, b, c])
      = PhraseStatus.Complete ∧
    ∀ s : Str, s ≠ a → s ≠ joinU [a, b] → s ≠ joinU [a, b, c] →
      getPhraseStatus (addPhrase ⟨PartMap.empty⟩ (joinU [a, b, c])).2 s
        = PhraseStatus.NotAPhrase := by
  have hg1 : ∀ p ∈ [a], '_' ∉ p := by
    intro p hp
    simp only [List.mem_singleton] at hp
    exact hp ▸ hau
  have hg2 : ∀ p ∈ [a, b], '_' ∉ p := by
    intro p hp
    simp only [List.mem_cons, List.not_mem_nil, or_false] at hp
    rcases hp with rfl | rfl
    exacts [hau, hbu]
  have hg3 : ∀ p ∈ [a, b, c], '_' ∉ p := by
    intro p hp
    simp only [List.mem_cons, List.not_mem_nil, or_false] at hp
    rcases hp with rfl | rfl | rfl
    exacts [hau, hbu, hcu]
  have h21 : joinU [a, b] ≠ a := by
    intro h
    have := joinU_inj hg2 hg1 (by simp) (by simp) (show joinU [a, b] = joinU [a] from h)
    simp at this
  have h31 : joinU [a, b, c] ≠ a := by
    intro h
    have := joinU_inj hg3 hg1 (by simp) (by simp) (show joinU [a, b, c] = joinU [a] from h)
    simp at this
  have h32 : joinU [a, b, c] ≠ joinU [a, b] := by
    intro h
    have := joinU_inj hg3 hg2 (by simp) (by simp) h
    simp at this
  have h21' : a ≠ joinU [a, b] := fun h => h21 h.symm
  have h31' : a ≠ joinU [a, b, c] := fun h => h31 h.symm
  have h32' : joinU [a, b] ≠ joinU [a, b, c] := fun h => h32 h.symm
  have hsplit : (joinU [a, b, c]).splitOn '_' = [a, b, c] := splitOn_joinU hg3 (by simp)
  have hlen3 : ¬ ([a, b, c] : List Str).length = 0 := by simp
  have htake : ([a, b, c] : List Str).take (([a, b, c] : List Str).length - 1) = [a, b] := rfl
  have hloop : addPrefixLoop PartMap.empty [] [a, b] =
      (none,
        PartMap.insert (PartMap.insert PartMap.empty a PhraseStatus.Incomplete)
          (joinU [a, b]) PhraseStatus.Incomplete, [a, b]) := by
    simp only [addPrefixLoop]
    rw [if_neg ha, List.nil_append]
    have hget1 : PartMap.get PartMap.empty (joinU [a]) = none := rfl
    rw [hget1]
    simp only [addPrefixLoop]
    rw [if_neg hb]
    have hget2 : PartMap.get (PartMap.insert PartMap.empty (joinU [a]) PhraseStatus.Incomplete)
        (joinU ([a] ++ [b])) = none := by
      simp only [PartMap.get, PartMap.insert]
      rw [if_neg (show joinU ([a] ++ [b]) ≠ joinU [a] from h21)]
      rfl
    rw [hget2]
    simp only [addPrefixLoop]
    rfl
  have hadd : addPhrase ⟨PartMap.empty⟩ (joinU [a, b, c]) =
      (none,
        ⟨PartMap.insert
          (PartMap.insert (PartMap.insert PartMap.empty a PhraseStatus.Incomplete)
            (joinU [a, b]) PhraseStatus.Incomplete)
          (joinU [a, b, c]) PhraseStatus.Complete⟩) := by
    simp only [addPhrase, hsplit]
    rw [if_neg hlen3, htake, hloop]
    simp only [List.getLast?]
    simp [hc, PartMap.get, PartMap.insert, PartMap.empty, h31, h32]
  rw [hadd]
  refine ⟨rfl, ?_, ?_, ?_, ?_⟩
  · simp [getPhraseStatus, PartMap.get, PartMap.insert, h31', h21']
  · simp [getPhraseStatus, PartMap.get, PartMap.insert, h32']
  · simp [getPhraseStatus, PartMap.get, PartMap.insert]
  · intro s hsa hsab hsabc
    simp [getPhraseStatus, PartMap.get, PartMap.insert, PartMap.empty, hsa, hsab, hsabc]

/-- C9 witness: the theorem instantiated at the segments `a`, `b`, `c`,
with `z` as the "other" string. -/
theorem C9_witness :
    (addPhrase ⟨PartMap.empty⟩ (joinU [['a'], ['b'], ['c']])).1 = none ∧
    getPhraseStatus (addPhrase ⟨PartMap.empty⟩ (joinU [['a'], ['b'], ['c']])).2 ['a']
      = PhraseStatus.Incomplete ∧
    getPhraseStatus (addPhrase ⟨PartMap.empty⟩ (joinU [['a'], ['b'], ['c']])).2
      (joinU [['a'], ['b']]) = PhraseStatus.Incomplete ∧
    getPhraseStatus (addPhrase ⟨PartMap.empty⟩ (joinU [['a'], ['b'], ['c']])).2
      (joinU [['a'], ['b'], ['c']]) = PhraseStatus.Complete ∧
    getPhraseStatus (addPhrase ⟨PartMap.empty⟩ (joinU [['a'], ['b'], ['c']])).2 ['z']
      = PhraseStatus.NotAPhrase := by
  have h := C9_three_segment_statuses ['a'] ['b'] ['c'] (by decide) (by decide) (by decide)
    (by decide) (by decide) (by decide) (by decide) (by decide) (by decide)
  exact ⟨h.1, h.2.1, h.2.2.1, h.2.2.2.1,
    h.2.2.2.2 ['z'] (by decide) (by decide) (by decide)⟩

/-! Claims C1 and C2. -/

/-- Shape of a successful `resolve_single_word_phrase` on an in-range
index: shared characterization lemma. -/
theorem resolveSingle_ok (node : ParseNode) (idx : Nat) (res : ParseResult)
    (h : idx < res.nodes.length) :
    resolveSingleWordPhrase node idx res =
      Except.ok (some res.nodes.length, singleResolved node idx res) := by
  by_cases hroot : res.root = idx <;>
    simp [resolveSingleWordPhrase, ParseResult.addNode, ParseResult.setRoot,
      ParseResult.modifyNode, singleResolved, setParentAt, hroot,
      List.getElem?_append_left h, List.getElem?_eq_getElem h]

/-- C2 counterexample: identifier 0 is the LEFT child of node 1; after
`resolve_single_word_phrase` the parent's left slot still holds `some 0`
— it is never re-pointed to the new `EmptyApply` node 2, contrary to
the claim that the former parent's matching child slot is re-pointed. -/
theorem C2_counterexample :
    resolveSingleWordPhrase exIdNode 0 exTree2 =
      Except.ok (some 2,
        ⟨[{ exIdNode with parent := some 2 }, exParentNode, mkEmptyApply exIdNode 0], 1⟩) ∧
    (ParseResult.getNode
        ⟨[{ exIdNode with parent := some 2 }, exParentNode, mkEmptyApply exIdNode 0], 1⟩ 1).map
      ParseNode.left = some (some 0) ∧
    (some (some 0) : Option (Option Nat)) ≠ some (some 2) := by
  refine ⟨rfl, by decide, by decide⟩

/-- C2 (amended): zero-argument resolution appends a new `EmptyApply`
node whose left child is the identifier, whose right is absent, and
whose parent is the identifier's former parent; it re-points the tree's
root to the new node when the identifier was the root, and sets the
identifier's parent to the new node — but it does NOT re-point the
former parent's child slot: every pre-existing node other than the
identifier itself is left unchanged. -/
theorem C2_single_word_resolution_shape
    (node : ParseNode) (idx : Nat) (res : ParseResult) (h : idx < res.nodes.length) :
    resolveSingleWordPhrase node idx res =
      Except.ok (some res.nodes.length, singleResolved node idx res) ∧
    ∀ j, j < res.nodes.length → j ≠ idx →
      (singleResolved node idx res).getNode j = res.getNode j := by
  refine ⟨resolveSingle_ok node idx res h, ?_⟩
  intro j hj hne
  simp only [singleResolved, setParentAt, ParseResult.getNode]
  rw [List.getElem?_append_left h, List.getElem?_eq_getElem h]
  rw [List.getElem?_set_ne (Ne.symm hne)]
  exact List.getElem?_append_left hj

/-- C2 witness: the amended theorem at the concrete two-node tree. -/
theorem C2_witness :
    resolveSingleWordPhrase exIdNode 0 exTree2 =
      Except.ok (some 2, singleResolved exIdNode 0 exTree2) ∧
    (singleResolved exIdNode 0 exTree2).getNode 1 = exTree2.getNode 1 :=
  ⟨(C2_single_word_resolution_shape exIdNode 0 exTree2 (by decide)).1,
   (C2_single_word_resolution_shape exIdNode 0 exTree2 (by decide)).2 1 (by decide) (by decide)⟩

/-- C1 counterexample: with the accumulator `"a"` open (no arguments
yet) and identifier `"b"` examined, where both `"a_b"` and `"b"` have
status `NotAPhrase`, the check leaves the supposedly abandoned
accumulator ON the stack and appends the candidate argument (index 2)
to ITS argument list — the accumulator is not popped, contrary to the
claim. -/
theorem C1_counterexample :
    checkNodeForPhrase exNodeB 2 [exInfoA] ctxNone exTreeE false =
      Except.ok ([⟨[['a']], [2]⟩], exTreeE) := by
  rfl

/-- C1 (amended): when `status(p + "_" + t)` is `NotAPhrase` the
previously open accumulator is NOT popped.  It stays on the stack: if
`t` alone is `NotAPhrase`, the node's own index is appended to the
still-open accumulator's argument list; if `t` alone is `Incomplete`, a
fresh accumulator is pushed on top of the old one; if `t` alone is
`Complete`, the node is resolved as a single-word phrase and the new
wrapper node's index is appended to the still-open accumulator's
argument list.  The old accumulator can therefore still resolve later. -/
theorem C1_broken_chain_keeps_accumulator
    (node : ParseNode) (idx : Nat) (info : PhraseInfo) (rest : List PhraseInfo)
    (ctx : PhraseCtx) (res : ParseResult) (b : Bool)
    (hdef : node.definition = Definition.Identifier)
    (hcomb : ctx (info.full_text_with node.lex_token.text) = PhraseStatus.NotAPhrase) :
    (ctx node.lex_token.text = PhraseStatus.NotAPhrase →
      checkNodeForPhrase node idx (info :: rest) ctx res b =
        Except.ok (info.add_argument idx :: rest, res)) ∧
    (ctx node.lex_token.text = PhraseStatus.Incomplete →
      checkNodeForPhrase node idx (info :: rest) ctx res b =
        Except.ok (PhraseInfo.mk1 node.lex_token.text :: info :: rest, res)) ∧
    (idx < res.nodes.length → ctx node.lex_token.text = PhraseStatus.Complete →
      checkNodeForPhrase node idx (info :: rest) ctx res b =
        Except.ok (info.add_argument res.nodes.length :: rest, singleResolved node idx res)) := by
  obtain ⟨d, sd, par, l, r, tk⟩ := node
  simp only at hdef
  subst hdef
  simp only [checkNodeForPhrase] at *
  rw [hcomb]
  refine ⟨?_, ?_, ?_⟩
  · intro ht
    rw [ht]
    rfl
  · intro ht
    rw [ht]
    rfl
  · intro hlt ht
    rw [ht, resolveSingle_ok ⟨Definition.Identifier, sd, par, l, r, tk⟩ idx res hlt]
    rfl

/-- C1 witness: the amended theorem applied at the concrete inputs of
the counterexample (status of both `"a_b"` and `"b"` is `NotAPhrase`). -/
theorem C1_witness :
    checkNodeForPhrase exNodeB 2 [exInfoA] ctxNone exTreeE false =
      Except.ok (exInfoA.add_argument 2 :: [], exTreeE) :=
  (C1_broken_chain_keeps_accumulator exNodeB 2 exInfoA [] ctxNone exTreeE false
    (by decide) (by decide)).1 (by decide)

/-! Claims C4, C5 and C7. -/

/-- C4 counterexample: a single-node tree whose recorded root index (7)
is absent from the arena.  The root lookup during phrase checking does
not resolve to a node, yet `reduce_phrases` succeeds and returns the
unchanged clone instead of aborting with an error. -/
theorem C4_counterexample :
    exBadRootTree.getNode exBadRootTree.root = none ∧
    reduce_phrases exBadRootTree ctxNone 0 = some (Except.ok exBadRootTree) := by
  exact ⟨rfl, rfl⟩

/-- C4 (amended): an index popped by the discovery traversal that is
absent from the arena aborts the reduction with an error, but an index
reaching `check_node_index_for_phrase` that is absent from the ORIGINAL
arena is silently skipped with `Ok` and no state change (in particular
a single-node tree with an out-of-range root reduces successfully). -/
theorem C4_absent_index_handling :
    (∀ (i : Nat) (phrases : PhraseStack) (ctx : PhraseCtx) (original result : ParseResult)
      (b : Bool), original.getNode i = none →
      checkNodeIndexForPhrase (some i) phrases ctx original result b =
        Except.ok (phrases, result)) ∧
    (∀ (original : ParseResult) (i : Nat) (rest parent_stack trace : List Nat) (fuel : Nat),
      original.getNode i = none →
      discoverLoop original (i :: rest) parent_stack trace (fuel + 1) =
        some (Except.error ("Node at index " ++ toString i ++ " not present"))) := by
  constructor
  · intro i phrases ctx original result b h
    simp [checkNodeIndexForPhrase, h]
  · intro original i rest parent_stack trace fuel h
    simp [discoverLoop, h]

/-- C4 witness: both halves of the amended theorem at concrete inputs
(the absent root index 7 of `exBadRootTree`; the absent index 3 of the
one-node tree `exTree1`). -/
theorem C4_witness :
    checkNodeIndexForPhrase (some 7) [] ctxNone exBadRootTree exBadRootTree false =
      Except.ok ([], exBadRootTree) ∧
    discoverLoop exTree1 [3] [] [] 1 =
      some (Except.error ("Node at index " ++ toString 3 ++ " not present")) :=
  ⟨C4_absent_index_handling.1 7 [] ctxNone exBadRootTree exBadRootTree false rfl,
   C4_absent_index_handling.2 exTree1 3 [] [] [] 0 rfl⟩

/-- C5 counterexample: on the three-node tree (root 0, left child 1,
right child 2) the discovery loop's pop order is `[0, 2, 1]`: the RIGHT
child (2) is popped from the work stack before the left child (1),
because the code pushes left first and right second — the opposite of
the claimed push and pop order. -/
theorem C5_counterexample :
    discoverLoop exTree3 [exTree3.root] [] [] 10 = some (Except.ok ([0], [0, 2, 1])) ∧
    ([0, 2, 1] : List Nat).indexOf 2 < ([0, 2, 1] : List Nat).indexOf 1 := by
  exact ⟨rfl, by decide⟩

/-- C5 (amended): when an interior node with two children is popped
from the work stack, its LEFT child is pushed before its right child,
so the right child ends on top of the work stack and is popped
(processed in discovery order) BEFORE the left child. -/
theorem C5_two_children_push_order
    (original : ParseResult) (i : Nat) (rest parent_stack trace : List Nat) (fuel : Nat)
    (node : ParseNode) (l r : Nat)
    (hn : original.getNode i = some node) (hl : node.left = some l)
    (hr : node.right = some r) :
    discoverLoop original (i :: rest) parent_stack trace (fuel + 1) =
      discoverLoop original (r :: l :: rest) (i :: parent_stack) (trace ++ [i]) fuel := by
  simp [discoverLoop, hn, hl, hr]

/-- C5 witness: one discovery step on the concrete three-node tree. -/
theorem C5_witness :
    discoverLoop exTree3 [0] [] [] 10 =
      discoverLoop exTree3 [2, 1] [0] ([] ++ [0]) 9 :=
  C5_two_children_push_order exTree3 0 [] [] [] 9
    ⟨Definition.List, SecondaryDefinition.OtherSecondary, none, some 1, some 2, exToken⟩
    1 2 rfl rfl rfl

/-- C7: `reduce_phrases` is a deterministic function of the tree, the
observable content of the registry and the fuel: two registries with
extensionally equal `get_phrase_status` yield identical results.  (The
absence of mutation of the inputs holds by construction in this pure
embedding, mirroring the Rust borrow discipline: `reduce_phrases` takes
`&ParseResult` and `&Context` and works on a clone.) -/
theorem C7_reduce_is_function_of_inputs
    (pr : ParseResult) (fuel : Nat) (c₁ c₂ : SimplePhraseContext)
    (h : ∀ s, getPhraseStatus c₁ s = getPhraseStatus c₂ s) :
    reduce_phrases pr (getPhraseStatus c₁) fuel =
      reduce_phrases pr (getPhraseStatus c₂) fuel := by
  have heq : getPhraseStatus c₁ = getPhraseStatus c₂ := funext h
  rw [heq]

/-- C7 witness: two syntactically different but observably equal
registries (a fresh one, and one that processed the no-op text `"_"`)
give identical reductions of the three-node tree. -/
theorem C7_witness :
    reduce_phrases exTree3 (getPhraseStatus ⟨PartMap.empty⟩) 10 =
      reduce_phrases exTree3 (getPhraseStatus (addPhrase ⟨PartMap.empty⟩ ['_']).2) 10 :=
  C7_reduce_is_function_of_inputs exTree3 10 ⟨PartMap.empty⟩
    (addPhrase ⟨PartMap.empty⟩ ['_']).2 (fun _ => rfl)

/-! Claim C3. -/

/-- C3 counterexample: at a root identifier (no parent) the `n == 0`
multi-word rewrite aborts with an error while zero-argument single-word
resolution succeeds, so the two code paths are not identical. -/
theorem C3_counterexample :
    multiWordZeroArg exRootIdNode 0 exTree1 = Except.error "Node at None not found" ∧
    resolveSingleWordPhrase exRootIdNode 0 exTree1 =
      Except.ok (some 1,
        ⟨[{ exRootIdNode with parent := some 1 }, mkEmptyApply exRootIdNode 0], 1⟩) ∧
    multiWordZeroArg exRootIdNode 0 exTree1 ≠ resolveSingleWordPhrase exRootIdNode 0 exTree1 := by
  refine ⟨rfl, rfl, fun h => ?_⟩
  rw [show multiWordZeroArg exRootIdNode 0 exTree1
      = Except.error "Node at None not found" from rfl,
    show resolveSingleWordPhrase exRootIdNode 0 exTree1 = Except.ok (some 1,
        ⟨[{ exRootIdNode with parent := some 1 }, mkEmptyApply exRootIdNode 0], 1⟩) from rfl] at h
  exact Except.noConfusion h

/-- C3 (amended): the `n == 0` multi-word close is NOT identical to
zero-argument single-word resolution.  When the identifier has a parent
`p` present in the arena and is not the root, the multi-word path
produces exactly the single-word result with ADDITIONALLY the former
parent's RIGHT child slot re-pointed to the new `EmptyApply` node
(regardless of which slot held the identifier); when the identifier has
no parent the multi-word path errors while the single-word path
succeeds and re-points the root (see the counterexample). -/
theorem C3_zero_arg_close_vs_single_word
    (node : ParseNode) (idx p : Nat) (res : ParseResult)
    (hp : node.parent = some p) (hpi : p ≠ idx)
    (hplen : p < res.nodes.length) (hilen : idx < res.nodes.length)
    (hroot : res.root ≠ idx) :
    multiWordZeroArg node idx res =
      Except.ok (some res.nodes.length,
        { singleResolved node idx res with
            nodes := setRightAt (singleResolved node idx res).nodes p res.nodes.length }) := by
  rcases hgp : res.nodes[p]? with _ | P
  · exact absurd (List.getElem?_eq_none_iff.mp hgp) (by omega)
  rcases hgi : res.nodes[idx]? with _ | N
  · exact absurd (List.getElem?_eq_none_iff.mp hgi) (by omega)
  have hset_len : p < (res.nodes.set p { P with right := some res.nodes.length }).length := by
    simpa using hplen
  have hgi₁ : (res.nodes.set p { P with right := some res.nodes.length })[idx]? = some N := by
    rw [List.getElem?_set_ne hpi]
    exact hgi
  have hgi₂ : (res.nodes.set p { P with right := some res.nodes.length }
      ++ [mkEmptyApply node idx])[idx]? = some N := by
    rw [List.getElem?_append_left (by simpa using hilen)]
    exact hgi₁
  have hgiap : (res.nodes ++ [mkEmptyApply node idx])[idx]? = some N := by
    rw [List.getElem?_append_left hilen]
    exact hgi
  have hgpap : ((res.nodes ++ [mkEmptyApply node idx]).set idx
      { N with parent := some res.nodes.length })[p]? = some P := by
    rw [List.getElem?_set_ne (Ne.symm hpi), List.getElem?_append_left hplen]
    exact hgp
  simp only [multiWordZeroArg, hp, Option.bind, ParseResult.modifyNode, hgp,
    ParseResult.addNode, hgi₂, singleResolved, setParentAt, hgiap, setRightAt, hgpap]
  rw [← List.set_append_left _ _ hplen, List.set_comm _ _ _ hpi]
  have hroot' : (if res.root = idx then res.nodes.length else res.root) = res.root :=
    if_neg hroot
  rw [hroot']

/-- C3 witness: the amended theorem at the concrete two-node tree
`exTree2` (identifier 0 under parent 1). -/
theorem C3_witness :
    multiWordZeroArg exIdNode 0 exTree2 =
      Except.ok (some 2,
        { singleResolved exIdNode 0 exTree2 with
            nodes := setRightAt (singleResolved exIdNode 0 exTree2).nodes 1 2 }) :=
  C3_zero_arg_close_vs_single_word exIdNode 0 1 exTree2 rfl (by decide) (by decide)
    (by decide) (by decide)

/-! Claim C8. -/

theorem costF_pos (pr : ParseResult) (k i : Nat) : 0 < costF pr k i := by
  cases k with
  | zero => simp [costF]
  | succ k =>
    simp only [costF]
    rcases hn : pr.getNode i with _ | node
    · simp [hn]
    · simp only [hn]
      rcases hl : node.left with _ | l <;> rcases hr : node.right with _ | r <;>
        simp only [hl, hr] <;> omega

theorem costF_mono (pr : ParseResult) :
    ∀ (k' k i : Nat), k ≤ k' → costF pr k i ≤ costF pr k' i := by
  intro k'
  induction k' with
  | zero =>
    intro k i hk
    have h0 : k = 0 := Nat.le_zero.mp hk
    subst h0
    exact le_refl _
  | succ k' ih =>
    intro k i hk
    cases k with
    | zero =>
      show costF pr 0 i ≤ costF pr (k' + 1) i
      have h1 : costF pr 0 i = 1 := rfl
      rw [h1]
      exact costF_pos pr (k' + 1) i
    | succ k =>
      have hk' : k ≤ k' := Nat.succ_le_succ_iff.mp hk
      simp only [costF]
      rcases hn : pr.getNode i with _ | node
      · simp [hn]
      · simp only [hn]
        rcases hl : node.left with _ | l <;> rcases hr : node.right with _ | r <;>
          simp only [hl, hr]
        · omega
        · have h1 := ih k r hk'
          omega
        · have h1 := ih k l hk'
          omega
        · have h1 := ih k l hk'
          have h2 := ih k r hk'
          omega

/-- With a ranking function for the child relation, the discovery loop
halts (with an `ok` or an `error`) whenever the fuel is at least the
summed cost of the work stack. -/
theorem discoverLoop_halts (pr : ParseResult) (rank : Nat → Nat) (hrank : RankOK pr rank) :
    ∀ (fuel : Nat) (stack parent_stack trace : List Nat),
      (stack.map (fun i => costF pr (rank i) i)).sum ≤ fuel →
      (discoverLoop pr stack parent_stack trace fuel).isSome := by
  intro fuel
  induction fuel with
  | zero =>
    intro stack ps tr hsum
    cases stack with
    | nil => simp [discoverLoop]
    | cons i rest =>
      exfalso
      have := costF_pos pr (rank i) i
      simp only [List.map_cons, List.sum_cons] at hsum
      omega
  | succ fuel ih =>
    intro stack ps tr hsum
    cases stack with
    | nil => simp [discoverLoop]
    | cons i rest =>
      simp only [discoverLoop]
      rcases hn : pr.getNode i with _ | node
      · simp [hn]
      · have hchild := hrank i node hn
        simp only [hn]
        rcases hl : node.left with _ | l <;> rcases hr : node.right with _ | r <;>
          simp only [hl, hr]
        · apply ih
          have hpos := costF_pos pr (rank i) i
          simp only [List.map_cons, List.sum_cons] at hsum ⊢
          omega
        · have hri : rank r < rank i := hchild.2 r hr
          obtain ⟨ki, hki⟩ : ∃ ki, rank i = ki + 1 := ⟨rank i - 1, by omega⟩
          have hcost : costF pr (rank i) i = 1 + costF pr ki r := by
            rw [hki]
            simp only [costF, hn, hl, hr]
          have hmr := costF_mono pr ki (rank r) r (by omega)
          apply ih
          simp only [List.map_cons, List.sum_cons] at hsum ⊢
          omega
        · have hli : rank l < rank i := hchild.1 l hl
          obtain ⟨ki, hki⟩ : ∃ ki, rank i = ki + 1 := ⟨rank i - 1, by omega⟩
          have hcost : costF pr (rank i) i = 1 + costF pr ki l := by
            rw [hki]
            simp only [costF, hn, hl, hr]
          have hml := costF_mono pr ki (rank l) l (by omega)
          apply ih
          simp only [List.map_cons, List.sum_cons] at hsum ⊢
          omega
        · have hli : rank l < rank i := hchild.1 l hl
          have hri : rank r < rank i := hchild.2 r hr
          obtain ⟨ki, hki⟩ : ∃ ki, rank i = ki + 1 := ⟨rank i - 1, by omega⟩
          have hcost : costF pr (rank i) i = 1 + costF pr ki l + costF pr ki r := by
            rw [hki]
            simp only [costF, hn, hl, hr]
          have hml := costF_mono pr ki (rank l) l (by omega)
          have hmr := costF_mono pr ki (rank r) r (by omega)
          apply ih
          simp only [List.map_cons, List.sum_cons] at hsum ⊢
          omega

/-- C8 counterexample: on the two-node cyclic tree (0 → 1 → 0) the
discovery `while let` loop never terminates: no amount of fuel makes
`reduce_phrases` return a result, refuting termination "on every input
tree including ones whose child indices contain cycles". -/
theorem C8_counterexample :
    ¬ ∃ fuel, (reduce_phrases exCycTree ctxNone fuel).isSome := by
  have hloop : ∀ (fuel : Nat) (ps tr : List Nat),
      discoverLoop exCycTree [0] ps tr fuel = none ∧
      discoverLoop exCycTree [1] ps tr fuel = none := by
    intro fuel
    induction fuel with
    | zero => intro ps tr; exact ⟨rfl, rfl⟩
    | succ fuel ih =>
      intro ps tr
      refine ⟨?_, ?_⟩
      · show discoverLoop exCycTree [0] ps tr (fuel + 1) = none
        have hstep : discoverLoop exCycTree [0] ps tr (fuel + 1) =
            discoverLoop exCycTree [1] (0 :: ps) (tr ++ [0]) fuel := rfl
        rw [hstep]
        exact (ih (0 :: ps) (tr ++ [0])).2
      · show discoverLoop exCycTree [1] ps tr (fuel + 1) = none
        have hstep : discoverLoop exCycTree [1] ps tr (fuel + 1) =
            discoverLoop exCycTree [0] (1 :: ps) (tr ++ [1]) fuel := rfl
        rw [hstep]
        exact (ih (1 :: ps) (tr ++ [1])).1
  rintro ⟨fuel, hsome⟩
  have h0 : discoverLoop exCycTree [exCycTree.root] [] [] fuel = none := (hloop fuel [] []).1
  simp [reduce_phrases, h0] at hsome
  rw [show exCycTree.nodes.length = 2 from rfl] at hsome
  exact absurd hsome (by decide)

/-- C8 (amended): `reduce_phrases` returns a result after finitely many
discovery iterations for every input tree whose child-index relation
admits a ranking function (equivalently, is acyclic on present nodes) —
in particular for every well-formed tree — with the needed fuel bounded
by the root's cost; on cyclic inputs the discovery loop runs forever
(see the counterexample). -/
theorem C8_terminates_on_ranked_trees
    (pr : ParseResult) (ctx : PhraseCtx) (rank : Nat → Nat) (hrank : RankOK pr rank) :
    ∃ fuel, (reduce_phrases pr ctx fuel).isSome := by
  by_cases hone : pr.nodes.length = 1
  · exact ⟨0, by simp [reduce_phrases, hone]⟩
  · refine ⟨costF pr (rank pr.root) pr.root, ?_⟩
    have hd := discoverLoop_halts pr rank hrank (costF pr (rank pr.root) pr.root)
      [pr.root] [] [] (by simp)
    rcases hds : discoverLoop pr [pr.root] [] [] (costF pr (rank pr.root) pr.root)
      with _ | res
    · rw [hds] at hd
      simp at hd
    · rcases res with e | ok <;> simp [reduce_phrases, hone, hds]

/-- C8 witness: the amended theorem at the concrete three-node tree,
ranked by `0 ↦ 1, _ ↦ 0`. -/
theorem C8_witness : ∃ fuel, (reduce_phrases exTree3 ctxNone fuel).isSome := by
  refine C8_terminates_on_ranked_trees exTree3 ctxNone
    (fun i => if i = 0 then 1 else 0) ?_
  intro i node h
  have hi : i < 3 := by
    by_contra hge
    rw [ParseResult.getNode, List.getElem?_eq_none (by simp [exTree3]; omega)] at h
    exact Option.noConfusion h
  interval_cases i
  · have hnode : node = ⟨Definition.List, SecondaryDefinition.OtherSecondary,
        none, some 1, some 2, exToken⟩ := by
      have h' : exTree3.getNode 0 = some ⟨Definition.List, SecondaryDefinition.OtherSecondary,
          none, some 1, some 2, exToken⟩ := rfl
      rw [h'] at h
      exact (Option.some.inj h).symm
    subst hnode
    constructor
    · intro l hl
      cases hl
      decide
    · intro r hr
      cases hr
      decide
  · have hnode : node = ⟨Definition.Number, SecondaryDefinition.OtherSecondary,
        some 0, none, none, exToken⟩ := by
      have h' : exTree3.getNode 1 = some ⟨Definition.Number, SecondaryDefinition.OtherSecondary,
          some 0, none, none, exToken⟩ := rfl
      rw [h'] at h
      exact (Option.some.inj h).symm
    subst hnode
    exact ⟨fun l hl => Option.noConfusion hl, fun r hr => Option.noConfusion hr⟩
  · have hnode : node = ⟨Definition.Number, SecondaryDefinition.OtherSecondary,
        some 0, none, none, exToken⟩ := by
      have h' : exTree3.getNode 2 = some ⟨Definition.Number, SecondaryDefinition.OtherSecondary,
          some 0, none, none, exToken⟩ := rfl
      rw [h'] at h
      exact (Option.some.inj h).symm
    subst hnode
    exact ⟨fun l hl => Option.noConfusion hl, fun r hr => Option.noConfusion hr⟩

/-! Claim C10: atomicity of failing registration on reachable registries. -/

theorem PartMap.insert_self (m : PartMap) (k : Str) (v : PhraseStatus) :
    PartMap.insert m k v k = some v := if_pos rfl

theorem PartMap.insert_ne (m : PartMap) (k : Str) (v : PhraseStatus) {s : Str} (h : s ≠ k) :
    PartMap.insert m k v s = m s := if_neg h

theorem PartMap.insert_isSome (m : PartMap) (k : Str) (v : PhraseStatus) {s : Str}
    (h : (m s).isSome) : ((PartMap.insert m k v) s).isSome := by
  by_cases hs : s = k <;> simp [PartMap.insert, hs, h]

/-- If the prefix loop fails, some extension of `running` by nonempty
parts of `ps` is already present as `Complete` in the INITIAL map. -/
theorem addPrefixLoop_failkey :
    ∀ (ps : List Str) (m : PartMap) (running : List Str),
      (addPrefixLoop m running ps).1.isSome →
      ∃ ext, ext ≠ [] ∧ (∀ q ∈ ext, q ≠ [] ∧ q ∈ ps) ∧
        m (joinU (running ++ ext)) = some PhraseStatus.Complete := by
  intro ps
  induction ps with
  | nil =>
    intro m running h
    simp [addPrefixLoop] at h
  | cons part rest ih =>
    intro m running h
    simp only [addPrefixLoop] at h
    by_cases hp : part = []
    · rw [if_pos hp] at h
      obtain ⟨ext, hne, hq, hcomp⟩ := ih m running h
      exact ⟨ext, hne, fun q hqm => ⟨(hq q hqm).1, List.mem_cons_of_mem part (hq q hqm).2⟩, hcomp⟩
    · rw [if_neg hp] at h
      rcases hget : PartMap.get m (joinU (running ++ [part])) with _ | status
      · rw [hget] at h
        obtain ⟨ext, hne, hq, hcomp⟩ := ih _ (running ++ [part]) h
        have hkey : joinU (running ++ [part] ++ ext) ≠ joinU (running ++ [part]) := by
          intro heq
          rw [heq, PartMap.insert_self] at hcomp
          exact PhraseStatus.noConfusion (Option.some.inj hcomp)
        rw [PartMap.insert_ne _ _ _ hkey] at hcomp
        refine ⟨part :: ext, List.cons_ne_nil _ _, ?_, ?_⟩
        · intro q hqm
          rcases List.mem_cons.mp hqm with rfl | hqm
          · exact ⟨hp, List.mem_cons_self _ _⟩
          · exact ⟨(hq q hqm).1, List.mem_cons_of_mem part (hq q hqm).2⟩
        · rw [List.append_cons running part ext]
          exact hcomp
      · rw [hget] at h
        have h' : (if status = PhraseStatus.Complete
            then ((some SimpleContextCodes.CompleteVersionExists, m, running ++ [part]) :
              Option SimpleContextCodes × PartMap × List Str)
            else addPrefixLoop m (running ++ [part]) rest).1.isSome := h
        by_cases hs : status = PhraseStatus.Complete
        · subst hs
          refine ⟨[part], List.cons_ne_nil _ _, ?_, ?_⟩
          · intro q hqm
            simp only [List.mem_singleton] at hqm
            exact ⟨hqm ▸ hp, hqm ▸ List.mem_cons_self _ _⟩
          · exact hget
        · rw [if_neg hs] at h'
          obtain ⟨ext, hne, hq, hcomp⟩ := ih _ (running ++ [part]) h'
          refine ⟨part :: ext, List.cons_ne_nil _ _, ?_, ?_⟩
          · intro q hqm
            rcases List.mem_cons.mp hqm with rfl | hqm
            · exact ⟨hp, List.mem_cons_self _ _⟩
            · exact ⟨(hq q hqm).1, List.mem_cons_of_mem part (hq q hqm).2⟩
          · rw [List.append_cons running part ext]
            exact hcomp

theorem take_succ_append (l₁ : List Str) (x : Str) (l₂ : List Str) :
    ((l₁ ++ [x]) ++ l₂).take (l₁.length + 1) = l₁ ++ [x] := by
  rw [List.take_append_of_le_length (by simp)]
  rw [show l₁.length + 1 = (l₁ ++ [x]).length from by simp]
  exact List.take_length _

/-- On a registry satisfying the prefix-closure invariant, a FAILING
prefix loop performs no insertion: the map it returns is the input
map.  (An insertion could only happen at a key absent from the map,
but the eventual failing key is present, and by the invariant so is
every shorter running prefix.) -/
theorem addPrefixLoop_fail_unchanged :
    ∀ (ps : List Str) (m : PartMap) (running : List Str),
      Inv m →
      (∀ q ∈ ps, '_' ∉ q) →
      (∀ q ∈ running, q ≠ [] ∧ '_' ∉ q) →
      (∀ j, 0 < j → j ≤ running.length → (m (joinU (running.take j))).isSome) →
      (addPrefixLoop m running ps).1.isSome →
      (addPrefixLoop m running ps).2.1 = m := by
  intro ps
  induction ps with
  | nil =>
    intro m running _ _ _ _ h
    simp [addPrefixLoop] at h
  | cons part rest ih =>
    intro m running hInv hps hrun hpre h
    simp only [addPrefixLoop] at h ⊢
    by_cases hp : part = []
    · rw [if_pos hp] at h ⊢
      exact ih m running hInv (fun q hq => hps q (List.mem_cons_of_mem part hq)) hrun hpre h
    · rw [if_neg hp] at h ⊢
      rcases hget : PartMap.get m (joinU (running ++ [part])) with _ | status
      · simp only [hget] at h ⊢
        exfalso
        obtain ⟨ext, hextne, hextq, hcomp⟩ := addPrefixLoop_failkey rest
          (PartMap.insert m (joinU (running ++ [part])) PhraseStatus.Incomplete)
          (running ++ [part]) h
        have hFne : joinU (running ++ [part] ++ ext) ≠ joinU (running ++ [part]) := by
          intro heq
          rw [heq, PartMap.insert_self] at hcomp
          exact PhraseStatus.noConfusion (Option.some.inj hcomp)
        rw [PartMap.insert_ne _ _ _ hFne] at hcomp
        have hFsome : (m (joinU (running ++ [part] ++ ext))).isSome := by
          rw [hcomp]; rfl
        have hgood : ∀ q ∈ running ++ [part] ++ ext, '_' ∉ q := by
          intro q hq
          rcases List.mem_append.mp hq with hq | hq
          · rcases List.mem_append.mp hq with hq | hq
            · exact (hrun q hq).2
            · simp only [List.mem_singleton] at hq
              exact hq ▸ hps part (List.mem_cons_self _ _)
          · exact hps q (List.mem_cons_of_mem part (hextq q hq).2)
        have hsegs : (joinU (running ++ [part] ++ ext)).splitOn '_' =
            running ++ [part] ++ ext :=
          splitOn_joinU hgood (by
            intro hemp
            rcases List.append_eq_nil.mp hemp with ⟨h1, h2⟩
            exact hextne h2)
        have hpre2 := (hInv _ hFsome).2
        rw [hsegs] at hpre2
        have hk := hpre2 (running.length + 1) (Nat.succ_pos _) (by
          rw [List.length_append, List.length_append]
          have hpos : 0 < ext.length := List.length_pos.mpr hextne
          simp only [List.length_singleton]
          omega)
        rw [take_succ_append running part ext] at hk
        rw [show m (joinU (running ++ [part])) = none from hget] at hk
        exact Bool.noConfusion hk
      · simp only [hget] at h ⊢
        have h' : (if status = PhraseStatus.Complete
            then ((some SimpleContextCodes.CompleteVersionExists, m, running ++ [part]) :
              Option SimpleContextCodes × PartMap × List Str)
            else addPrefixLoop m (running ++ [part]) rest).1.isSome := h
        show (if status = PhraseStatus.Complete
            then ((some SimpleContextCodes.CompleteVersionExists, m, running ++ [part]) :
              Option SimpleContextCodes × PartMap × List Str)
            else addPrefixLoop m (running ++ [part]) rest).2.1 = m
        by_cases hs : status = PhraseStatus.Complete
        · rw [if_pos hs]
        · rw [if_neg hs] at h' ⊢
          refine ih m (running ++ [part]) hInv
            (fun q hq => hps q (List.mem_cons_of_mem part hq)) ?_ ?_ h'
          · intro q hq
            rcases List.mem_append.mp hq with hq | hq
            · exact hrun q hq
            · simp only [List.mem_singleton] at hq
              exact ⟨hq ▸ hp, hq ▸ hps part (List.mem_cons_self _ _)⟩
          · intro j hj0 hjle
            rw [List.length_append, List.length_singleton] at hjle
            by_cases hj : j ≤ running.length
            · rw [List.take_append_of_le_length hj]
              exact hpre j hj0 hj
            · have hj1 : j = running.length + 1 := by omega
              subst hj1
              rw [show running ++ [part] = (running ++ [part]) ++ [] from by simp,
                take_succ_append running part []]
              rw [show m (joinU (running ++ [part])) = some status from hget]
              rfl

/-- A SUCCESSFUL prefix loop all of whose running-prefix keys are
already present performs no insertion. -/
theorem addPrefixLoop_present_keys_unchanged :
    ∀ (ps : List Str) (m : PartMap) (running : List Str) (m₁ : PartMap) (r₁ : List Str),
      addPrefixLoop m running ps = (none, m₁, r₁) →
      (∀ j, 0 < j → j ≤ r₁.length → (m (joinU (r₁.take j))).isSome) →
      m₁ = m := by
  intro ps
  induction ps with
  | nil =>
    intro m running m₁ r₁ h hpre
    simp only [addPrefixLoop, Prod.mk.injEq] at h
    exact h.2.1.symm
  | cons part rest ih =>
    intro m running m₁ r₁ h hpre
    simp only [addPrefixLoop] at h
    by_cases hp : part = []
    · rw [if_pos hp] at h
      exact ih m running m₁ r₁ h hpre
    · rw [if_neg hp] at h
      rcases hget : PartMap.get m (joinU (running ++ [part])) with _ | status
      · simp only [hget] at h
        exfalso
        have hr := addPrefixLoop_ok_running rest _ _ _ _ h
        have hkey := hpre (running.length + 1) (Nat.succ_pos _) (by
          rw [hr]
          simp only [List.length_append, List.length_append, List.length_singleton]
          omega)
        rw [hr, take_succ_append running part _] at hkey
        rw [show m (joinU (running ++ [part])) = none from hget] at hkey
        exact Bool.noConfusion hkey
      · simp only [hget] at h
        by_cases hs : status = PhraseStatus.Complete
        · rw [if_pos hs] at h
          simp at h
        · rw [if_neg hs] at h
          exact ih m (running ++ [part]) m₁ r₁ h hpre

/-- Every key whose value a SUCCESSFUL prefix loop changes is the join
of some nonempty prefix of the final running parts. -/
theorem addPrefixLoop_changed_keys :
    ∀ (ps : List Str) (m : PartMap) (running : List Str) (m₁ : PartMap) (r₁ : List Str),
      addPrefixLoop m running ps = (none, m₁, r₁) →
      ∀ s, m₁ s ≠ m s →
      ∃ j, 0 < j ∧ j ≤ r₁.length ∧ s = joinU (r₁.take j) := by
  intro ps
  induction ps with
  | nil =>
    intro m running m₁ r₁ h s hs
    simp only [addPrefixLoop, Prod.mk.injEq] at h
    exact absurd (congrFun h.2.1.symm s) hs
  | cons part rest ih =>
    intro m running m₁ r₁ h s hs
    simp only [addPrefixLoop] at h
    by_cases hp : part = []
    · rw [if_pos hp] at h
      exact ih m running m₁ r₁ h s hs
    · rw [if_neg hp] at h
      rcases hget : PartMap.get m (joinU (running ++ [part])) with _ | status
      · simp only [hget] at h
        by_cases hsk : s = joinU (running ++ [part])
        · have hr := addPrefixLoop_ok_running rest _ _ _ _ h
          refine ⟨running.length + 1, Nat.succ_pos _, ?_, ?_⟩
          · rw [hr]
            simp only [List.length_append, List.length_append, List.length_singleton]
            omega
          · rw [hr, take_succ_append running part _]
            exact hsk
        · by_cases hms : m₁ s =
              PartMap.insert m (joinU (running ++ [part])) PhraseStatus.Incomplete s
          · exfalso
            rw [PartMap.insert_ne _ _ _ hsk] at hms
            exact hs hms
          · exact ih _ _ _ _ h s hms
      · simp only [hget] at h
        by_cases hst : status = PhraseStatus.Complete
        · rw [if_pos hst] at h
          simp at h
        · rw [if_neg hst] at h
          exact ih m (running ++ [part]) m₁ r₁ h s hs

theorem take_full_append (l₁ : List Str) (x : Str) :
    (l₁ ++ [x]).take (l₁.length + 1) = l₁ ++ [x] := by
  rw [show l₁.length + 1 = (l₁ ++ [x]).length from by simp]
  exact List.take_length _

/-- Inserting the join of a good part list, all of whose proper
prefixes are present, preserves the prefix-closure invariant. -/
theorem Inv_insert_key (m : PartMap) (parts : List Str) (v : PhraseStatus)
    (hInv : Inv m)
    (hgood : ∀ q ∈ parts, q ≠ [] ∧ '_' ∉ q)
    (hne : parts ≠ [])
    (hpre : ∀ j, 0 < j → j < parts.length → (m (joinU (parts.take j))).isSome) :
    Inv (PartMap.insert m (joinU parts) v) := by
  have hsegs : (joinU parts).splitOn '_' = parts :=
    splitOn_joinU (fun q hq => (hgood q hq).2) hne
  intro s hs
  by_cases hsk : s = joinU parts
  · subst hsk
    rw [hsegs]
    refine ⟨fun p hp => (hgood p hp).1, ?_⟩
    intro k hk0 hklt
    exact PartMap.insert_isSome m _ v (hpre k hk0 hklt)
  · rw [PartMap.insert_ne _ _ _ hsk] at hs
    obtain ⟨h1, h2⟩ := hInv s hs
    exact ⟨h1, fun k hk0 hklt => PartMap.insert_isSome m _ v (h2 k hk0 hklt)⟩

/-- The prefix loop preserves the invariant, and on success its final
running parts are good and have all their prefix joins present. -/
theorem addPrefixLoop_preserves_Inv :
    ∀ (ps : List Str) (m : PartMap) (running : List Str),
      Inv m →
      (∀ q ∈ ps, '_' ∉ q) →
      (∀ q ∈ running, q ≠ [] ∧ '_' ∉ q) →
      (∀ j, 0 < j → j ≤ running.length → (m (joinU (running.take j))).isSome) →
      Inv (addPrefixLoop m running ps).2.1 ∧
      ((addPrefixLoop m running ps).1 = none →
        (∀ q ∈ (addPrefixLoop m running ps).2.2, q ≠ [] ∧ '_' ∉ q) ∧
        (∀ j, 0 < j → j ≤ (addPrefixLoop m running ps).2.2.length →
          ((addPrefixLoop m running ps).2.1
            (joinU ((addPrefixLoop m running ps).2.2.take j))).isSome)) := by
  intro ps
  induction ps with
  | nil =>
    intro m running hInv hps hrun hpre
    simp only [addPrefixLoop]
    exact ⟨hInv, fun _ => ⟨hrun, hpre⟩⟩
  | cons part rest ih =>
    intro m running hInv hps hrun hpre
    simp only [addPrefixLoop]
    by_cases hp : part = []
    · rw [if_pos hp]
      exact ih m running hInv (fun q hq => hps q (List.mem_cons_of_mem part hq)) hrun hpre
    · rw [if_neg hp]
      have hrun' : ∀ q ∈ running ++ [part], q ≠ [] ∧ '_' ∉ q := by
        intro q hq
        rcases List.mem_append.mp hq with hq | hq
        · exact hrun q hq
        · simp only [List.mem_singleton] at hq
          exact ⟨hq ▸ hp, hq ▸ hps part (List.mem_cons_self _ _)⟩
      rcases hget : PartMap.get m (joinU (running ++ [part])) with _ | status
      · simp only [hget]
        have hInv' : Inv (PartMap.insert m (joinU (running ++ [part]))
            PhraseStatus.Incomplete) := by
          refine Inv_insert_key m (running ++ [part]) PhraseStatus.Incomplete hInv hrun'
            (by simp) ?_
          intro j hj0 hjlt
          rw [List.length_append, List.length_singleton] at hjlt
          have hjle : j ≤ running.length := by omega
          rw [List.take_append_of_le_length hjle]
          exact hpre j hj0 hjle
        have hpre' : ∀ j, 0 < j → j ≤ (running ++ [part]).length →
            ((PartMap.insert m (joinU (running ++ [part])) PhraseStatus.Incomplete)
              (joinU ((running ++ [part]).take j))).isSome := by
          intro j hj0 hjle
          rw [List.length_append, List.length_singleton] at hjle
          by_cases hj : j ≤ running.length
          · rw [List.take_append_of_le_length hj]
            exact PartMap.insert_isSome m _ _ (hpre j hj0 hj)
          · have hj1 : j = running.length + 1 := by omega
            subst hj1
            rw [take_full_append]
            rw [PartMap.insert_self]
            rfl
        exact ih _ (running ++ [part]) hInv'
          (fun q hq => hps q (List.mem_cons_of_mem part hq)) hrun' hpre'
      · simp only [hget]
        by_cases hst : status = PhraseStatus.Complete
        · rw [if_pos hst]
          exact ⟨hInv, fun hc => Option.noConfusion hc⟩
        · rw [if_neg hst]
          refine ih m (running ++ [part]) hInv
            (fun q hq => hps q (List.mem_cons_of_mem part hq)) hrun' ?_
          intro j hj0 hjle
          rw [List.length_append, List.length_singleton] at hjle
          by_cases hj : j ≤ running.length
          · rw [List.take_append_of_le_length hj]
            exact hpre j hj0 hj
          · have hj1 : j = running.length + 1 := by omega
            subst hj1
            rw [take_full_append]
            rw [show m (joinU (running ++ [part])) = some status from hget]
            rfl

/-- `add_phrase` preserves the prefix-closure invariant (also on its
failing paths). -/
theorem addPhrase_preserves_Inv (c : SimplePhraseContext) (phrase : Str)
    (hInv : Inv c.part_map) : Inv (addPhrase c phrase).2.part_map := by
  simp only [addPhrase]
  by_cases hlen : (phrase.splitOn '_').length = 0
  · rw [if_pos hlen]
    exact hInv
  · rw [if_neg hlen]
    have hps : ∀ q ∈ (phrase.splitOn '_').take ((phrase.splitOn '_').length - 1), '_' ∉ q :=
      fun q hq => not_mem_of_mem_splitOn (List.mem_of_mem_take hq)
    have hloopInv := addPrefixLoop_preserves_Inv
      ((phrase.splitOn '_').take ((phrase.splitOn '_').length - 1)) c.part_map [] hInv hps
      (fun q hq => absurd hq (List.not_mem_nil q))
      (by intro j hj0 hjle; simp only [List.length_nil] at hjle; omega)
    rcases hloop : addPrefixLoop c.part_map []
        ((phrase.splitOn '_').take ((phrase.splitOn '_').length - 1)) with ⟨res, m₁, r₁⟩
    rw [hloop] at hloopInv
    cases res with
    | some e => exact hloopInv.1
    | none =>
      obtain ⟨hr1good, hr1pre⟩ := hloopInv.2 rfl
      rcases hlast : (phrase.splitOn '_').getLast? with _ | lastp
      · exact hloopInv.1
      · simp only []
        by_cases hlp : lastp = []
        · rw [if_pos hlp]
          exact hloopInv.1
        · rw [if_neg hlp]
          rcases hget : PartMap.get m₁ (joinU (r₁ ++ [lastp])) with _ | status
          · refine Inv_insert_key m₁ (r₁ ++ [lastp]) PhraseStatus.Complete hloopInv.1 ?_
              (by simp) ?_
            · intro q hq
              rcases List.mem_append.mp hq with hq | hq
              · exact hr1good q hq
              · simp only [List.mem_singleton] at hq
                subst hq
                exact ⟨hlp, not_mem_of_mem_splitOn (List.mem_of_mem_getLast? hlast)⟩
            · intro j hj0 hjlt
              rw [List.length_append, List.length_singleton] at hjlt
              have hjle : j ≤ r₁.length := by omega
              rw [List.take_append_of_le_length hjle]
              exact hr1pre j hj0 hjle
          · simp only []
            by_cases hst : status = PhraseStatus.Incomplete
            · rw [if_pos hst]
              exact hloopInv.1
            · rw [if_neg hst]
              exact hloopInv.1

/-- Every reachable registry satisfies the invariant. -/
theorem Reachable_Inv {c : SimplePhraseContext} (h : Reachable c) : Inv c.part_map := by
  induction h with
  | base =>
    intro s hs
    simp [PartMap.empty] at hs
  | step c p _ ih => exact addPhrase_preserves_Inv c p ih

/-- C10: failing registration is atomic in effect.  For every registry
reachable by a sequence of `add_phrase` calls from a fresh
`SimplePhraseContext`, a further `add_phrase` call that returns an
error leaves the mapping exactly as it was: in every reachable state
all proper prefixes of an existing key are already present, so the
failing call never inserted anything before hitting the conflict. -/
theorem C10_failing_add_phrase_is_atomic
    (c : SimplePhraseContext) (hreach : Reachable c) (p : Str) (e : SimpleContextCodes)
    (hfail : (addPhrase c p).1 = some e) :
    (addPhrase c p).2 = c := by
  have hInv : Inv c.part_map := Reachable_Inv hreach
  simp only [addPhrase] at hfail ⊢
  by_cases hlen : (p.splitOn '_').length = 0
  · rw [if_pos hlen] at hfail
    exact absurd hfail (by simp)
  · rw [if_neg hlen] at hfail ⊢
    have hps : ∀ q ∈ (p.splitOn '_').take ((p.splitOn '_').length - 1), '_' ∉ q :=
      fun q hq => not_mem_of_mem_splitOn (List.mem_of_mem_take hq)
    rcases hloop : addPrefixLoop c.part_map []
        ((p.splitOn '_').take ((p.splitOn '_').length - 1)) with ⟨res, m₁, r₁⟩
    rw [hloop] at hfail
    cases res with
    | some e' =>
      have hm : (addPrefixLoop c.part_map []
          ((p.splitOn '_').take ((p.splitOn '_').length - 1))).2.1 = c.part_map := by
        refine addPrefixLoop_fail_unchanged _ c.part_map [] hInv hps
          (fun q hq => absurd hq (List.not_mem_nil q))
          (by intro j hj0 hjle; simp only [List.length_nil] at hjle; omega) ?_
        rw [hloop]
        rfl
      rw [hloop] at hm
      have hm' : m₁ = c.part_map := hm
      show (⟨m₁⟩ : SimplePhraseContext) = c
      rw [hm']
    | none =>
      rcases hlast : (p.splitOn '_').getLast? with _ | lastp
      · simp only [hlast] at hfail
        exact absurd hfail (by simp)
      · simp only [hlast] at hfail
        simp only []
        by_cases hlp : lastp = []
        · rw [if_pos hlp] at hfail
          exact absurd hfail (by simp)
        · rw [if_neg hlp] at hfail ⊢
          rcases hget : PartMap.get m₁ (joinU (r₁ ++ [lastp])) with _ | status
          · simp only [hget] at hfail
            exact absurd hfail (by simp)
          · simp only [hget] at hfail
            by_cases hst : status = PhraseStatus.Incomplete
            · subst hst
              have hmK : m₁ (joinU (r₁ ++ [lastp])) = some PhraseStatus.Incomplete := hget
              have hr : r₁ = ((p.splitOn '_').take ((p.splitOn '_').length - 1)).filter
                  (fun q => !q.isEmpty) := by
                simpa using addPrefixLoop_ok_running _ _ _ _ _ hloop
              have hr₁good : ∀ q ∈ r₁, q ≠ [] ∧ '_' ∉ q := by
                intro q hq
                rw [hr] at hq
                have hmem := List.mem_of_mem_filter hq
                have hqne : q ≠ [] := by
                  have hpq := List.of_mem_filter hq
                  simp only [Bool.not_eq_true'] at hpq
                  intro hq0
                  rw [hq0] at hpq
                  exact Bool.noConfusion hpq
                exact ⟨hqne, hps q hmem⟩
              have hlastgood : lastp ≠ [] ∧ '_' ∉ lastp :=
                ⟨hlp, not_mem_of_mem_splitOn (List.mem_of_mem_getLast? hlast)⟩
              have hKgood : ∀ q ∈ r₁ ++ [lastp], q ≠ [] ∧ '_' ∉ q := by
                intro q hq
                rcases List.mem_append.mp hq with hq | hq
                · exact hr₁good q hq
                · simp only [List.mem_singleton] at hq
                  exact hq ▸ hlastgood
              have hKm : c.part_map (joinU (r₁ ++ [lastp])) = some PhraseStatus.Incomplete := by
                by_cases hch : m₁ (joinU (r₁ ++ [lastp])) =
                    c.part_map (joinU (r₁ ++ [lastp]))
                · rw [← hch]
                  exact hmK
                · exfalso
                  obtain ⟨j, hj0, hjle, hjK⟩ :=
                    addPrefixLoop_changed_keys _ _ _ _ _ hloop _ hch
                  have htakene : r₁.take j ≠ [] := by
                    intro h0
                    have hlent := congrArg List.length h0
                    simp only [List.length_take, List.length_nil] at hlent
                    omega
                  have heq := joinU_inj (fun q hq => (hKgood q hq).2)
                    (fun q hq => (hr₁good q (List.mem_of_mem_take hq)).2)
                    (by simp) htakene hjK
                  have hlen1 := congrArg List.length heq
                  simp only [List.length_append, List.length_singleton,
                    List.length_take] at hlen1
                  omega
              have hKsome : (c.part_map (joinU (r₁ ++ [lastp]))).isSome := by
                rw [hKm]
                rfl
              have hsegsK : (joinU (r₁ ++ [lastp])).splitOn '_' = r₁ ++ [lastp] :=
                splitOn_joinU (fun q hq => (hKgood q hq).2) (by simp)
              have hpre2 := (hInv _ hKsome).2
              rw [hsegsK] at hpre2
              have hmeq : m₁ = c.part_map := by
                refine addPrefixLoop_present_keys_unchanged _ _ _ _ _ hloop ?_
                intro j hj0 hjle
                have hk := hpre2 j hj0 (by
                  simp only [List.length_append, List.length_singleton]
                  omega)
                rwa [List.take_append_of_le_length hjle] at hk
              show (⟨m₁⟩ : SimplePhraseContext) = c
              rw [hmeq]
            · rw [if_neg hst] at hfail
              exact absurd hfail (by simp)

/-- C10 witness: registering `a_b` into a fresh registry, then
attempting to register `a` fails with `IncompleteVersionExists` and
leaves the registry exactly as it was. -/
theorem C10_witness :
    (addPhrase exCtxAB ['a']).1 = some SimpleContextCodes.IncompleteVersionExists ∧
    (addPhrase exCtxAB ['a']).2 = exCtxAB :=
  ⟨by decide,
   C10_failing_add_phrase_is_atomic exCtxAB
     (Reachable.step ⟨PartMap.empty⟩ "a_b".toList Reachable.base) ['a']
     SimpleContextCodes.IncompleteVersionExists (by decide)⟩

end GarnishPhrases
